import Mathlib

/-!
# Verification of `generate_plugins_json.py` (AidenZaire/algebytestore)

A shallow embedding of the manifest-generation script.  File contents and
file names are modelled as `List Char`; the regular expression

  `__plugin_(name|author|version|description)__\s*=\s*["\'](.+?)["\']`

is modelled by a hand-rolled matcher with Python `re` semantics
(leftmost, non-overlapping scan; non-greedy `.+?` taking the shortest
non-empty run of non-newline characters up to the next quote character;
`\s*` greedy over Python whitespace).  `dict(re.findall(...))` is modelled
by insertion-order folding with last-value-wins, `str.replace` by a
left-to-right replace-all, and the directory walk plus fallible reads by a
fold in the `Option` monad: `none` models an exception aborting the run
before the output file is written.
-/

namespace AlgebyteStore

/-- File names and file contents, as Python strings. -/
abbrev Str := List Char

/-- The four metadata field names in the regex alternation
`(name|author|version|description)`. -/
inductive Field where
  | name
  | author
  | version
  | description
deriving DecidableEq, Repr

/-- The literal spelling of each field, in the regex's alternation order. -/
def fieldLits : List (Field × Str) :=
  [(Field.name, "name".toList),
   (Field.author, "author".toList),
   (Field.version, "version".toList),
   (Field.description, "description".toList)]

/-- Strip an exact literal from the front of a string
(the regex engine consuming a literal). -/
def dropLit : Str → Str → Option Str
  | [], s => some s
  | _ :: _, [] => none
  | p :: ps, c :: cs => if c = p then dropLit ps cs else none

/-- Python `\s`: space, tab, newline, carriage return, vertical tab, form feed. -/
def isWs (c : Char) : Bool :=
  c = ' ' || c = '\t' || c = '\n' || c = '\r' || c = '\x0b' || c = '\x0c'

/-- The character class `["\']`. -/
def isQuote (c : Char) : Bool :=
  c = '"' || c = '\''

/-- The alternation `(name|author|version|description)__`: the four literals
tried in order, each followed by the closing `__`.  (The alternatives start
with pairwise distinct characters, so at most one can apply; trying them in
order is exactly the engine's backtracking behaviour.) -/
def pickFieldIn : List (Field × Str) → Str → Option (Field × Str)
  | [], _ => none
  | (f, lit) :: rest, s =>
    match dropLit (lit ++ "__".toList) s with
    | some r => some (f, r)
    | none => pickFieldIn rest s

def pickField (s : Str) : Option (Field × Str) :=
  pickFieldIn fieldLits s

/-- The non-greedy `(.+?)["\']`: the shortest non-empty run of non-newline
characters followed by a quote character.  Returns the captured value and
the remainder after the closing quote. -/
def takeVal : Str → Option (Str × Str)
  | [] => none
  | c :: cs =>
    if c = '\n' then none
    else
      match cs with
      | [] => none
      | d :: ds =>
        if isQuote d then some ([c], ds)
        else
          match takeVal cs with
          | some (v, r) => some (c :: v, r)
          | none => none

/-- Consume one character satisfying `p` (a one-character class in the
pattern), returning the remainder. -/
def expectChar (p : Char → Bool) : Str → Option Str
  | [] => none
  | c :: cs => if p c then some cs else none

/-- Attempt to match the whole metadata pattern at the start of `s`:
literal `__plugin_`, an alternation field plus `__`, `\s*`, `=`, `\s*`,
an opening quote, the non-greedy value, a closing quote.  Returns the
field, the captured value and the remainder after the match. -/
def matchAt (s : Str) : Option (Field × Str × Str) :=
  (dropLit "__plugin_".toList s).bind (fun s1 =>
    (pickField s1).bind (fun fr =>
      (expectChar (fun c => c = '=') (fr.2.dropWhile isWs)).bind (fun s4 =>
        (expectChar isQuote (s4.dropWhile isWs)).bind (fun s6 =>
          (takeVal s6).map (fun vr => (fr.1, vr.1, vr.2))))))

/-- The scan of `re.findall`, with explicit fuel so that the recursion is
structural (and hence evaluates inside the kernel).  Every step consumes
at least one character, so fuel `s.length` always suffices; see
`findallAux_congr`. -/
def findallAux : Nat → Str → List (Field × Str)
  | 0, _ => []
  | fuel + 1, s =>
    match matchAt s with
    | some (f, v, r) => (f, v) :: findallAux fuel r
    | none =>
      match s with
      | [] => []
      | _ :: t => findallAux fuel t

/-- `re.findall(metadata_pattern, content)`: scan left to right; at each
position try the pattern; on success emit the two capture groups as a pair
and resume after the match (non-overlapping); on failure advance one
character. -/
def findall (s : Str) : List (Field × Str) :=
  findallAux s.length s

/-- `dict` insertion: an existing key's value is replaced in place, a new
key is appended at the end (Python dict insertion-order semantics). -/
def dInsert (m : List (Field × Str)) (k : Field) (v : Str) : List (Field × Str) :=
  match m with
  | [] => [(k, v)]
  | (k', v') :: rest =>
    if k' = k then (k', v) :: rest else (k', v') :: dInsert rest k v

/-- `dict(pairs)`: fold the pairs in order into an empty dict, so a later
pair for the same key overwrites the earlier value. -/
def pyDict (l : List (Field × Str)) : List (Field × Str) :=
  l.foldl (fun m p => dInsert m p.1 p.2) []

/-- Dictionary lookup (first entry with the key; `pyDict` keeps keys unique). -/
def dGet (m : List (Field × Str)) (k : Field) : Option Str :=
  (m.find? (fun p => p.1 = k)).map (fun p => p.2)

/-- `meta_matches = dict(re.findall(metadata_pattern, content))`. -/
def extract (content : Str) : List (Field × Str) :=
  pyDict (findall content)

/-- `all(k in meta_matches for k in ["name", "author", "version", "description"])`. -/
def hasAll (m : List (Field × Str)) : Bool :=
  (dGet m Field.name).isSome && (dGet m Field.author).isSome &&
    (dGet m Field.version).isSome && (dGet m Field.description).isSome

/-- Python `str.replace(old, new)` with explicit fuel (structural, so the
kernel evaluates it; a match consumes `old.length ≥ 1` characters in the
script's only use, so fuel `s.length` suffices): replace every
non-overlapping occurrence of `old`, left to right. -/
def replaceAllAux (old new : Str) : Nat → Str → Str
  | _, [] => []
  | 0, s => s
  | fuel + 1, c :: cs =>
    match dropLit old (c :: cs) with
    | some r => new ++ replaceAllAux old new fuel r
    | none => c :: replaceAllAux old new fuel cs

/-- `str.replace(old, new)`. -/
def replaceAll (old new s : Str) : Str :=
  replaceAllAux old new s.length s

/-- `PLUGIN_DIR = "plugins"`. -/
def PLUGIN_DIR : Str := "plugins".toList

/-- `ICON_DIR = "icons"`. -/
def ICON_DIR : Str := "icons".toList

/-- The fixed remote repository base path of both f-strings. -/
def remoteBase : Str :=
  "https://raw.githubusercontent.com/AidenZaire/algebytestore/main/".toList

/-- `icon_url = f"...main/{ICON_DIR}/{icon_file}"`. -/
def iconUrl (iconFile : Str) : Str :=
  remoteBase ++ ICON_DIR ++ ['/'] ++ iconFile

/-- `download_url = f"...main/{PLUGIN_DIR}/{filename}"`. -/
def downloadUrl (filename : Str) : Str :=
  remoteBase ++ PLUGIN_DIR ++ ['/'] ++ filename

/-- `filename.endswith(".py")`. -/
def endsWithPy (filename : Str) : Bool :=
  decide (".py".toList <:+ filename)

/-- `icon_file = filename.replace(".py", ".png")`. -/
def iconFileOf (filename : Str) : Str :=
  replaceAll ".py".toList ".png".toList filename

/-- One manifest record, with the six keys the script writes. -/
structure Plugin where
  name : Str
  author : Str
  version : Str
  description : Str
  icon_url : Str
  download_url : Str
deriving DecidableEq, Repr

/-- The dict appended to `plugins_data` for a qualifying file. -/
def mkRecord (m : List (Field × Str)) (filename : Str) : Plugin :=
  { name := (dGet m Field.name).getD []
    author := (dGet m Field.author).getD []
    version := (dGet m Field.version).getD []
    description := (dGet m Field.description).getD []
    icon_url := iconUrl (iconFileOf filename)
    download_url := downloadUrl filename }

/-- The filesystem as the script sees it: `os.listdir(PLUGIN_DIR)` in
enumeration order, and reading a file, which yields `none` when `open`/
`read`/decoding raises. -/
structure Dir where
  listing : List Str
  readFile : Str → Option Str

/-- The `for filename in os.listdir(PLUGIN_DIR)` loop body, threaded over
the listing with the accumulated `plugins_data`; `none` models an
exception aborting the run. -/
def runAux (fs : Str → Option Str) (acc : List Plugin) : List Str → Option (List Plugin)
  | [] => some acc
  | fn :: rest =>
    if endsWithPy fn then
      match fs fn with
      | none => none
      | some content =>
        if hasAll (extract content) then
          runAux fs (acc ++ [mkRecord (extract content) fn]) rest
        else
          runAux fs acc rest
    else
      runAux fs acc rest

/-- The whole scan: the final `plugins_data`, or `none` when the run
aborted with an exception before reaching the output step. -/
def run (d : Dir) : Option (List Plugin) :=
  runAux d.readFile [] d.listing

/-- A file qualifies: it is a `.py` candidate, it can be read, and all
four fields are extracted. -/
def qualifiesIn (d : Dir) (fn : Str) : Bool :=
  endsWithPy fn &&
    (match d.readFile fn with
     | some content => hasAll (extract content)
     | none => false)

/-- The record the script builds for `fn` (meaningful when `fn` qualifies). -/
def recordOf (d : Dir) (fn : Str) : Plugin :=
  mkRecord (extract ((d.readFile fn).getD [])) fn

/-- JSON values, as far as `json.dump` needs them here. -/
inductive Json where
  | str : Str → Json
  | arr : List Json → Json
  | obj : List (Str × Json) → Json

/-- The JSON object `json.dump` writes for one record (keys in insertion
order). -/
def pluginToJson (p : Plugin) : Json :=
  Json.obj
    [("name".toList, Json.str p.name),
     ("author".toList, Json.str p.author),
     ("version".toList, Json.str p.version),
     ("description".toList, Json.str p.description),
     ("icon_url".toList, Json.str p.icon_url),
     ("download_url".toList, Json.str p.download_url)]

/-- `json.dump(plugins_data, f, indent=2)`: the value serialized into
`plugins.json` is the array of the records in order. -/
def manifestJson (l : List Plugin) : Json :=
  Json.arr (l.map pluginToJson)

/-- What ends up in `plugins.json`: nothing when the run aborted, the
serialized array otherwise. -/
def writtenManifest (d : Dir) : Option Json :=
  (run d).map manifestJson

/-- Parsing the written file back as a JSON array (a round-trip through
`json.dump`/`json.loads`). -/
def jsonToList : Json → Option (List Json)
  | Json.arr l => some l
  | _ => none

/-- `len(plugins_data)`, the count interpolated into the summary line
`f"... Generated plugins.json with {len(plugins_data)} plugins."`. -/
def reportedCount (l : List Plugin) : Nat :=
  l.length

/-- The metadata field of a record named by `f` (the four keys the script
copies out of `meta_matches`). -/
def recField : Field → Plugin → Str
  | Field.name => Plugin.name
  | Field.author => Plugin.author
  | Field.version => Plugin.version
  | Field.description => Plugin.description

/-! ## Concrete fixtures (directories and file contents used to
instantiate the theorems) -/

/-- A plugin source in the shape of the repository's own plugins. -/
def tContent : Str :=
  ("__plugin_name__ = \"Money Converter\"\n" ++
   "__plugin_author__ = \"Ayden\"\n" ++
   "__plugin_version__ = \"1.1\"\n" ++
   "__plugin_description__ = \"Convert currencies offline.\"\n").toList

def fnC : Str := "CurrencyConverter.py".toList

/-- One qualifying plugin file plus one non-`.py` file. -/
def tDir : Dir :=
  { listing := [fnC, "README.md".toList]
    readFile := fun fn => if fn = fnC then some tContent else none }

/-- A directory whose only candidate file cannot be read. -/
def badDir : Dir :=
  { listing := ["broken.py".toList]
    readFile := fun _ => none }

/-- An empty plugin directory. -/
def emptyDir : Dir :=
  { listing := []
    readFile := fun _ => none }

/-- A qualifying file whose name contains `.py` also before the trailing
extension. -/
def c2fn : Str := "a.py.py".toList

def c2dir : Dir :=
  { listing := [c2fn]
    readFile := fun fn => if fn = c2fn then some tContent else none }

/-- A file with three of the four required fields (no description). -/
def c3content : Str :=
  ("__plugin_name__ = \"Partial\"\n" ++
   "__plugin_author__ = \"Ayden\"\n" ++
   "__plugin_version__ = \"0.1\"\n").toList

def c3fn : Str := "three.py".toList

def c3dir : Dir :=
  { listing := [c3fn]
    readFile := fun fn => if fn = c3fn then some c3content else none }

/-- A file whose `name` value is itself a full `author` assignment: the
scan's first match swallows the inner occurrence. -/
def c7content : Str :=
  "__plugin_name__ = \"__plugin_author__ = 'A'\"".toList

/-- A comment-like prefix containing no match of the pattern. -/
def commentPre : Str := "# note ".toList

/-- Duplicate assignments to the same field. -/
def c9content : Str :=
  ("__plugin_name__ = 'A'\n" ++
   "__plugin_name__ = 'B'\n").toList

/-- The only `name` assignment has an empty value, but a stray quote
later on the same line lets the non-greedy pattern close a match. -/
def c10content : Str :=
  ("__plugin_name__ = \"\" x \"\n" ++
   "__plugin_author__ = 'A'\n" ++
   "__plugin_version__ = '1'\n" ++
   "__plugin_description__ = 'D'\n").toList

def c10fn : Str := "empty.py".toList

def c10dir : Dir :=
  { listing := [c10fn]
    readFile := fun fn => if fn = c10fn then some c10content else none }

/-! ## Matcher lemmas -/

theorem dropLit_length {p s r : Str} (h : dropLit p s = some r) :
    r.length + p.length = s.length := by
  induction p generalizing s with
  | nil => simp [dropLit] at h; simp [h]
  | cons a ps ih =>
    cases s with
    | nil => simp [dropLit] at h
    | cons c cs =>
      simp only [dropLit] at h
      split at h
      · have := ih h
        simp only [List.length_cons]
        omega
      · exact absurd h (by simp)

theorem dropLit_suffix {p s r : Str} (h : dropLit p s = some r) : r <:+ s := by
  induction p generalizing s with
  | nil => simp [dropLit] at h; simp [h]
  | cons a ps ih =>
    cases s with
    | nil => simp [dropLit] at h
    | cons c cs =>
      simp only [dropLit] at h
      split at h
      · exact (ih h).trans (List.suffix_cons c cs)
      · exact absurd h (by simp)

theorem pickFieldIn_suffix {l : List (Field × Str)} {s : Str} {f : Field} {r : Str}
    (h : pickFieldIn l s = some (f, r)) : r <:+ s := by
  induction l with
  | nil => simp [pickFieldIn] at h
  | cons p rest ih =>
    simp only [pickFieldIn] at h
    split at h
    · cases h; exact dropLit_suffix (by assumption)
    · exact ih h

theorem pickFieldIn_length {l : List (Field × Str)} {s : Str} {f : Field} {r : Str}
    (h : pickFieldIn l s = some (f, r))
    (hl : ∀ q ∈ l, (q.2 : Str) ≠ []) : r.length < s.length := by
  induction l with
  | nil => simp [pickFieldIn] at h
  | cons p rest ih =>
    simp only [pickFieldIn] at h
    split at h
    · cases h
      rename_i heq
      have hlen := dropLit_length heq
      have hne : (p.2 : Str) ≠ [] := hl p (by simp)
      have : 0 < (p.2 ++ "__".toList).length := by
        simp [List.length_append]
      omega
    · exact ih h (fun q hq => hl q (List.mem_cons_of_mem _ hq))

theorem takeVal_spec {s v r : Str} (h : takeVal s = some (v, r)) :
    v ≠ [] ∧ v.length + 1 + r.length = s.length := by
  induction s generalizing v r with
  | nil => simp [takeVal] at h
  | cons c cs ih =>
    simp only [takeVal] at h
    split at h
    · exact absurd h (by simp)
    · cases cs with
      | nil => simp at h
      | cons d ds =>
        simp only at h
        split at h
        · rw [Option.some_inj] at h
          cases h
          refine ⟨by simp, ?_⟩
          simp only [List.length_cons, List.length_nil]
          omega
        · cases heq : takeVal (d :: ds) with
          | none => rw [heq] at h; simp at h
          | some vr =>
            rw [heq] at h
            obtain ⟨v', r'⟩ := vr
            simp only at h
            rw [Option.some_inj] at h
            cases h
            obtain ⟨hne, hlen⟩ := ih heq
            constructor
            · simp
            · simp only [List.length_cons] at *
              omega

theorem takeVal_length {s v r : Str} (h : takeVal s = some (v, r)) :
    r.length < s.length := by
  have := (takeVal_spec h).2
  omega

theorem takeVal_suffix {s v r : Str} (h : takeVal s = some (v, r)) : r <:+ s := by
  induction s generalizing v r with
  | nil => simp [takeVal] at h
  | cons c cs ih =>
    simp only [takeVal] at h
    split at h
    · exact absurd h (by simp)
    · cases cs with
      | nil => simp at h
      | cons d ds =>
        simp only at h
        split at h
        · rw [Option.some_inj] at h
          cases h
          exact (List.suffix_cons d _).trans (List.suffix_cons c _)
        · cases heq : takeVal (d :: ds) with
          | none => rw [heq] at h; simp at h
          | some vr =>
            rw [heq] at h
            obtain ⟨v', r'⟩ := vr
            simp only at h
            rw [Option.some_inj] at h
            cases h
            exact (ih heq).trans (List.suffix_cons c (d :: ds))

theorem expectChar_suffix {p : Char → Bool} {s r : Str}
    (h : expectChar p s = some r) : r <:+ s ∧ r.length < s.length := by
  cases s with
  | nil => simp [expectChar] at h
  | cons c cs =>
    simp only [expectChar] at h
    split at h
    · rw [Option.some_inj] at h
      subst h
      exact ⟨List.suffix_cons c cs, by simp⟩
    · exact absurd h (by simp)

/-- Decompose a successful `matchAt` into its stages. -/
theorem matchAt_elim {s : Str} {f : Field} {v r : Str}
    (h : matchAt s = some (f, v, r)) :
    ∃ s1 s2 s4 s6,
      dropLit "__plugin_".toList s = some s1 ∧
      pickField s1 = some (f, s2) ∧
      expectChar (fun c => c = '=') (s2.dropWhile isWs) = some s4 ∧
      expectChar isQuote (s4.dropWhile isWs) = some s6 ∧
      takeVal s6 = some (v, r) := by
  simp only [matchAt, Option.bind_eq_some, Option.map_eq_some'] at h
  obtain ⟨s1, h1, ⟨f', s2⟩, h2, s4, h3, s6, h4, ⟨v', r'⟩, h5, h6⟩ := h
  rw [Prod.mk.injEq] at h6
  obtain ⟨hf, hvr⟩ := h6
  rw [Prod.mk.injEq] at hvr
  obtain ⟨hv, hr⟩ := hvr
  subst hf; subst hv; subst hr
  exact ⟨s1, s2, s4, s6, h1, h2, h3, h4, h5⟩

theorem matchAt_suffix {s : Str} {f : Field} {v r : Str}
    (h : matchAt s = some (f, v, r)) : r <:+ s := by
  obtain ⟨s1, s2, s4, s6, h1, h2, h3, h4, h5⟩ := matchAt_elim h
  have e1 : s1 <:+ s := dropLit_suffix h1
  have e2 : s2 <:+ s1 := pickFieldIn_suffix h2
  have e3 : s4 <:+ s2 :=
    ((expectChar_suffix h3).1.trans (List.dropWhile_suffix isWs))
  have e4 : s6 <:+ s4 :=
    ((expectChar_suffix h4).1.trans (List.dropWhile_suffix isWs))
  have e5 : r <:+ s6 := takeVal_suffix h5
  exact ((((e5.trans e4).trans e3).trans e2).trans e1)

theorem matchAt_length {s : Str} {f : Field} {v r : Str}
    (h : matchAt s = some (f, v, r)) : r.length < s.length := by
  obtain ⟨s1, s2, s4, s6, h1, h2, h3, h4, h5⟩ := matchAt_elim h
  have e1 : s1.length ≤ s.length := (dropLit_suffix h1).length_le
  have e2 : s2.length ≤ s1.length := (pickFieldIn_suffix h2).length_le
  have e3 : s4.length < s2.length :=
    Nat.lt_of_lt_of_le (expectChar_suffix h3).2
      (List.dropWhile_suffix isWs).length_le
  have e4 : s6.length < s4.length :=
    Nat.lt_of_lt_of_le (expectChar_suffix h4).2
      (List.dropWhile_suffix isWs).length_le
  have e5 : r.length < s6.length := takeVal_length h5
  omega

theorem matchAt_nil : matchAt [] = none := rfl

theorem findallAux_congr :
    ∀ (n m : Nat) (s : Str), s.length ≤ n → s.length ≤ m →
      findallAux n s = findallAux m s := by
  intro n
  induction n with
  | zero =>
    intro m s hn _
    have : s = [] := List.length_eq_zero.mp (Nat.le_zero.mp hn)
    subst this
    cases m with
    | zero => rfl
    | succ m => simp [findallAux, matchAt_nil]
  | succ n ih =>
    intro m s hn hm
    cases m with
    | zero =>
      have : s = [] := List.length_eq_zero.mp (Nat.le_zero.mp hm)
      subst this
      simp [findallAux, matchAt_nil]
    | succ m =>
      simp only [findallAux]
      cases hma : matchAt s with
      | some fvr =>
        obtain ⟨f, v, r⟩ := fvr
        have hr := matchAt_length hma
        show (f, v) :: findallAux n r = (f, v) :: findallAux m r
        rw [ih m r (by omega) (by omega)]
      | none =>
        cases s with
        | nil => rfl
        | cons c t =>
          simp only [List.length_cons] at hn hm
          show findallAux n t = findallAux m t
          exact ih m t (by omega) (by omega)

theorem findall_eq_findallAux {n : Nat} {s : Str} (h : s.length ≤ n) :
    findall s = findallAux n s :=
  findallAux_congr s.length n s (Nat.le_refl _) h

/-- Unfolding: a match at the head of the scan is emitted and the scan
resumes after it. -/
theorem findall_pos {s : Str} {f : Field} {v r : Str}
    (h : matchAt s = some (f, v, r)) :
    findall s = (f, v) :: findall r := by
  have hlen := matchAt_length h
  cases hs : s with
  | nil => rw [hs] at h; rw [matchAt_nil] at h; exact absurd h (by simp)
  | cons c t =>
    subst hs
    rw [findall]
    simp only [List.length_cons, findallAux, h]
    rw [← findall_eq_findallAux (by simp at hlen; omega)]

/-- Unfolding: no match at this position, advance one character. -/
theorem findall_neg {c : Char} {t : Str} (h : matchAt (c :: t) = none) :
    findall (c :: t) = findall t := by
  rw [findall]
  simp only [List.length_cons, findallAux, h]
  rw [← findall_eq_findallAux (Nat.le_refl _)]

theorem findall_nil : findall [] = [] := rfl

/-! ## Characterization of the run -/

/-- The loop, from any accumulator: it succeeds exactly when every `.py`
candidate can be read, and then yields the accumulator followed by one
record per qualifying file, in listing order. -/
theorem runAux_eq_some_iff (d : Dir) (acc : List Plugin) (lst : List Str)
    (l : List Plugin) :
    runAux d.readFile acc lst = some l ↔
      (∀ fn ∈ lst, endsWithPy fn = true → (d.readFile fn).isSome) ∧
      l = acc ++ (lst.filter (qualifiesIn d)).map (recordOf d) := by
  induction lst generalizing acc with
  | nil =>
    simp only [runAux, List.filter_nil, List.map_nil, List.append_nil,
      List.not_mem_nil, false_implies, implies_true, true_and, Option.some_inj]
    exact eq_comm
  | cons fn rest ih =>
    simp only [runAux]
    by_cases hpy : endsWithPy fn = true
    · rw [if_pos hpy]
      cases hread : d.readFile fn with
      | none =>
        simp only [hread]
        constructor
        · intro h; exact absurd h (by simp)
        · rintro ⟨hall, -⟩
          have := hall fn (by simp) hpy
          rw [hread] at this
          simp at this
      | some content =>
        simp only [hread]
        by_cases hq : hasAll (extract content) = true
        · rw [if_pos hq, ih]
          have hqual : qualifiesIn d fn = true := by
            simp [qualifiesIn, hpy, hread, hq]
          have hrec : recordOf d fn = mkRecord (extract content) fn := by
            simp [recordOf, hread]
          simp only [List.filter_cons, hqual, if_pos, List.map_cons, hrec]
          constructor
          · rintro ⟨h1, h2⟩
            refine ⟨?_, ?_⟩
            · intro g hg hgpy
              rcases List.mem_cons.mp hg with rfl | hg'
              · simp [hread]
              · exact h1 g hg' hgpy
            · simpa using h2
          · rintro ⟨h1, h2⟩
            refine ⟨fun g hg hgpy => h1 g (List.mem_cons_of_mem _ hg) hgpy, ?_⟩
            simpa using h2
        · rw [if_neg hq, ih]
          have hqual : qualifiesIn d fn = false := by
            have hh : hasAll (extract content) = false := by
              simpa using hq
            simp [qualifiesIn, hread, hh]
          simp only [List.filter_cons, hqual]
          constructor
          · rintro ⟨h1, h2⟩
            refine ⟨?_, by simpa using h2⟩
            intro g hg hgpy
            rcases List.mem_cons.mp hg with rfl | hg'
            · simp [hread]
            · exact h1 g hg' hgpy
          · rintro ⟨h1, h2⟩
            exact ⟨fun g hg hgpy => h1 g (List.mem_cons_of_mem _ hg) hgpy,
              by simpa using h2⟩
    · rw [if_neg hpy, ih]
      have hqual : qualifiesIn d fn = false := by
        have hh : endsWithPy fn = false := by
          simpa using hpy
        simp [qualifiesIn, hh]
      simp only [List.filter_cons, hqual]
      constructor
      · rintro ⟨h1, h2⟩
        refine ⟨?_, by simpa using h2⟩
        intro g hg hgpy
        rcases List.mem_cons.mp hg with rfl | hg'
        · exact absurd hgpy hpy
        · exact h1 g hg' hgpy
      · rintro ⟨h1, h2⟩
        exact ⟨fun g hg hgpy => h1 g (List.mem_cons_of_mem _ hg) hgpy,
          by simpa using h2⟩

/-- The run succeeds exactly when every `.py` candidate can be read, and
then the manifest is one record per qualifying file, in listing order. -/
theorem run_eq_some_iff (d : Dir) (l : List Plugin) :
    run d = some l ↔
      (∀ fn ∈ d.listing, endsWithPy fn = true → (d.readFile fn).isSome) ∧
      l = (d.listing.filter (qualifiesIn d)).map (recordOf d) := by
  rw [run, runAux_eq_some_iff]
  simp

/-! ## Scan lemmas -/

/-- Every pair the scan reports arises from an actual match of the
pattern at some position (suffix) of the text. -/
theorem findall_sound :
    ∀ (s : Str) {f : Field} {v : Str}, (f, v) ∈ findall s →
      ∃ t r, t <:+ s ∧ matchAt t = some (f, v, r) := by
  have H : ∀ (n : Nat) (s : Str), s.length ≤ n → ∀ {f : Field} {v : Str},
      (f, v) ∈ findall s → ∃ t r, t <:+ s ∧ matchAt t = some (f, v, r) := by
    intro n
    induction n with
    | zero =>
      intro s hs f v h
      have : s = [] := List.length_eq_zero.mp (Nat.le_zero.mp hs)
      subst this
      rw [findall_nil] at h
      simp at h
    | succ n ih =>
      intro s hs f v h
      cases hma : matchAt s with
      | some fvr =>
        obtain ⟨f0, v0, r⟩ := fvr
        rw [findall_pos hma] at h
        rcases List.mem_cons.mp h with heq | htail
        · rw [Prod.mk.injEq] at heq
          obtain ⟨rfl, rfl⟩ := heq
          exact ⟨s, r, List.suffix_refl s, hma⟩
        · have hr := matchAt_length hma
          obtain ⟨t, r', ht, hm⟩ := ih r (by omega) htail
          exact ⟨t, r', ht.trans (matchAt_suffix hma), hm⟩
      | none =>
        cases s with
        | nil => rw [findall_nil] at h; simp at h
        | cons c cs =>
          rw [findall_neg hma] at h
          simp only [List.length_cons] at hs
          obtain ⟨t, r', ht, hm⟩ := ih cs (by omega) h
          exact ⟨t, r', ht.trans (List.suffix_cons c cs), hm⟩
  intro s f v h
  exact H s.length s (Nat.le_refl _) h

/-- Context-insensitivity of the scan: text in front of the matches that
itself starts no match (such as comment markers or arbitrary prose) does
not change the result. -/
theorem findall_prepend {pre s : Str}
    (h : ∀ i, i < pre.length → matchAt (List.drop i (pre ++ s)) = none) :
    findall (pre ++ s) = findall s := by
  induction pre with
  | nil => simp
  | cons c p ih =>
    have h0 : matchAt ((c :: p) ++ s) = none := by
      simpa using h 0 (by simp)
    rw [List.cons_append, findall_neg (by simpa using h0)]
    apply ih
    intro i hi
    have := h (i + 1) (by simp only [List.length_cons]; omega)
    simpa using this

/-- The capture group `(.+?)` never captures the empty string. -/
theorem findall_val_ne_nil {s : Str} {f : Field} {v : Str}
    (h : (f, v) ∈ findall s) : v ≠ [] := by
  obtain ⟨t, r, -, hm⟩ := findall_sound s h
  obtain ⟨s1, s2, s4, s6, -, -, -, -, h5⟩ := matchAt_elim hm
  exact (takeVal_spec h5).1

/-! ## URL lemmas -/

theorem downloadUrl_inj {a b : Str} (h : downloadUrl a = downloadUrl b) :
    a = b := by
  simp only [downloadUrl] at h
  exact List.append_cancel_left h

theorem mkRecord_download_url (m : List (Field × Str)) (fn : Str) :
    (mkRecord m fn).download_url = downloadUrl fn := rfl

/-! ## List helper -/

theorem filter_eq_singleton_of_nodup {l : List Str} {a : Str}
    (hnd : l.Nodup) (ha : a ∈ l) :
    l.filter (fun x => x = a) = [a] := by
  induction l with
  | nil => simp at ha
  | cons b t ih =>
    rw [List.nodup_cons] at hnd
    obtain ⟨hbt, hndt⟩ := hnd
    rcases List.mem_cons.mp ha with rfl | hat
    · have hnone : t.filter (fun x => decide (x = a)) = [] := by
        rw [List.filter_eq_nil_iff]
        intro x hx
        simp only [decide_eq_true_eq]
        rintro rfl
        exact hbt hx
      simp [List.filter_cons, hnone]
    · have hba : (b = a) = False := by
        simp only [eq_iff_iff, iff_false]
        rintro rfl
        exact hbt hat
      simp [List.filter_cons, hba, ih hndt hat]

/-! ## Dictionary lemmas -/

theorem dGet_nil (f : Field) : dGet [] f = none := by
  simp [dGet]

theorem dGet_cons (k' : Field) (v' : Str) (rest : List (Field × Str)) (f : Field) :
    dGet ((k', v') :: rest) f = if k' = f then some v' else dGet rest f := by
  simp only [dGet]
  by_cases h : k' = f
  · rw [List.find?_cons_of_pos _ (by simp [h]), if_pos h]
    rfl
  · rw [List.find?_cons_of_neg _ (by simp [h]), if_neg h]

theorem dGet_dInsert (m : List (Field × Str)) (k : Field) (v : Str) (f : Field) :
    dGet (dInsert m k v) f = if k = f then some v else dGet m f := by
  induction m with
  | nil =>
    simp only [dInsert, dGet_cons, dGet_nil]
  | cons p rest ih =>
    obtain ⟨k', v'⟩ := p
    by_cases hk : k' = k
    · subst hk
      have hid : dInsert ((k', v') :: rest) k' v = (k', v) :: rest := by
        simp [dInsert]
      rw [hid, dGet_cons, dGet_cons]
      by_cases hf : k' = f
      · rw [if_pos hf, if_pos hf]
      · rw [if_neg hf, if_neg hf, if_neg hf]
    · simp only [dInsert, if_neg hk, dGet_cons, ih]
      by_cases hf : k' = f
      · subst hf
        rw [if_pos rfl, if_neg (fun h => hk h.symm), if_pos rfl]
      · rw [if_neg hf, if_neg hf]

/-- `dict(pairs)` looks up to the value of the last pair with the key. -/
theorem dGet_pyDict (l : List (Field × Str)) (f : Field) :
    dGet (pyDict l) f =
      ((l.filter (fun p => p.1 = f)).getLast?).map (fun p => p.2) := by
  induction l using List.reverseRecOn with
  | nil => simp [pyDict, dGet]
  | append_singleton l p ih =>
    obtain ⟨k, v⟩ := p
    rw [pyDict, List.foldl_append]
    simp only [List.foldl_cons, List.foldl_nil]
    rw [show List.foldl (fun m q => dInsert m q.1 q.2) [] l = pyDict l from rfl]
    rw [dGet_dInsert]
    by_cases hf : k = f
    · subst hf
      rw [if_pos rfl, List.filter_append]
      have hone : List.filter (fun p => decide (p.1 = k)) [(k, v)] = [(k, v)] := by
        simp
      rw [hone, List.getLast?_append_cons]
      simp
    · rw [if_neg hf, ih]
      have hnone : List.filter (fun p => decide (p.1 = f)) [(k, v)] = [] := by
        simp [hf]
      rw [List.filter_append, hnone, List.append_nil]

/-! ## Claims -/

/-- C4: if reading any `.py` candidate source file fails, the whole run
aborts (the exception propagates out of the loop) and the output manifest
is never written; by `run_eq_some_iff` there is no partial-success mode.  -/
theorem C4_read_failure_aborts (d : Dir) (fn : Str)
    (hmem : fn ∈ d.listing) (hpy : endsWithPy fn = true)
    (hfail : d.readFile fn = none) :
    run d = none ∧ writtenManifest d = none := by
  have hnone : run d = none := by
    cases hr : run d with
    | none => rfl
    | some l =>
      obtain ⟨hreads, -⟩ := (run_eq_some_iff d l).mp hr
      have := hreads fn hmem hpy
      rw [hfail] at this
      simp at this
  exact ⟨hnone, by rw [writtenManifest, hnone]; rfl⟩

theorem C4_read_failure_aborts_witness :
    run badDir = none ∧ writtenManifest badDir = none :=
  C4_read_failure_aborts badDir "broken.py".toList (by decide) (by decide)
    (by decide)

/-- C5: parsing the written JSON yields a list whose length equals the
printed count, which equals the number of qualifying files. -/
theorem C5_roundtrip_count (d : Dir) (l : List Plugin)
    (hrun : run d = some l) :
    jsonToList (manifestJson l) = some (l.map pluginToJson) ∧
    (l.map pluginToJson).length = reportedCount l ∧
    reportedCount l = (d.listing.filter (qualifiesIn d)).length := by
  refine ⟨rfl, by rw [List.length_map]; rfl, ?_⟩
  have hl := ((run_eq_some_iff d l).mp hrun).2
  rw [reportedCount, hl, List.length_map]

set_option maxRecDepth 200000 in
theorem C5_roundtrip_count_witness :
    jsonToList (manifestJson [mkRecord (extract tContent) fnC]) =
      some ([mkRecord (extract tContent) fnC].map pluginToJson) ∧
    ([mkRecord (extract tContent) fnC].map pluginToJson).length =
      reportedCount [mkRecord (extract tContent) fnC] ∧
    reportedCount [mkRecord (extract tContent) fnC] =
      (tDir.listing.filter (qualifiesIn tDir)).length :=
  C5_roundtrip_count tDir [mkRecord (extract tContent) fnC] (by decide)

/-- C6: when no candidate qualifies (and the run completes, i.e. every
`.py` candidate is readable), the written output is the empty JSON array
and the reported count is `0`. -/
theorem C6_no_qualifying_empty_array (d : Dir)
    (hreads : ∀ fn ∈ d.listing, endsWithPy fn = true → (d.readFile fn).isSome)
    (hnoq : ∀ fn ∈ d.listing, qualifiesIn d fn = false) :
    run d = some [] ∧ writtenManifest d = some (Json.arr []) ∧
    reportedCount [] = 0 := by
  have hfil : d.listing.filter (qualifiesIn d) = [] :=
    List.filter_eq_nil_iff.mpr (fun a ha => by simp [hnoq a ha])
  have hrun : run d = some [] :=
    (run_eq_some_iff d []).mpr ⟨hreads, by rw [hfil]; rfl⟩
  exact ⟨hrun, by rw [writtenManifest, hrun]; rfl, rfl⟩

theorem C6_no_qualifying_empty_array_witness :
    run emptyDir = some [] ∧
    writtenManifest emptyDir = some (Json.arr []) ∧
    reportedCount [] = 0 :=
  C6_no_qualifying_empty_array emptyDir
    (fun fn hfn => absurd hfn (List.not_mem_nil fn))
    (fun fn hfn => absurd hfn (List.not_mem_nil fn))

/-- C8: the manifest is exactly the directory enumeration order restricted
to qualifying files, one record per qualifying file, in that order. -/
theorem C8_manifest_order (d : Dir) (l : List Plugin)
    (hrun : run d = some l) :
    l = (d.listing.filter (qualifiesIn d)).map (recordOf d) :=
  ((run_eq_some_iff d l).mp hrun).2

set_option maxRecDepth 200000 in
theorem C8_manifest_order_witness :
    [mkRecord (extract tContent) fnC] =
      (tDir.listing.filter (qualifiesIn tDir)).map (recordOf tDir) :=
  C8_manifest_order tDir [mkRecord (extract tContent) fnC] (by decide)

/-- C1: for every listed file that ends in `.py`, is readable, and whose
text yields all four metadata fields, the manifest contains exactly one
record for that file (identified by its download URL), and its metadata
fields are the extracted values. -/
theorem C1_qualifying_unique_record (d : Dir) (l : List Plugin) (fn c : Str)
    (hnd : d.listing.Nodup) (hmem : fn ∈ d.listing)
    (hpy : endsWithPy fn = true) (hread : d.readFile fn = some c)
    (hall : hasAll (extract c) = true) (hrun : run d = some l) :
    l.filter (fun p => p.download_url = downloadUrl fn) =
      [{ name := (dGet (extract c) Field.name).getD []
         author := (dGet (extract c) Field.author).getD []
         version := (dGet (extract c) Field.version).getD []
         description := (dGet (extract c) Field.description).getD []
         icon_url := iconUrl (iconFileOf fn)
         download_url := downloadUrl fn }] := by
  have hqual : qualifiesIn d fn = true := by
    simp [qualifiesIn, hpy, hread, hall]
  have hl := ((run_eq_some_iff d l).mp hrun).2
  subst hl
  rw [List.filter_map]
  have hcong :
      List.filter
        ((fun p => decide (p.download_url = downloadUrl fn)) ∘ recordOf d)
        (d.listing.filter (qualifiesIn d)) =
      List.filter (fun g => decide (g = fn))
        (d.listing.filter (qualifiesIn d)) := by
    apply List.filter_congr
    intro g hg
    simp only [Function.comp_apply, decide_eq_decide]
    constructor
    · intro he
      exact downloadUrl_inj (he : downloadUrl g = downloadUrl fn)
    · rintro rfl
      rfl
  rw [hcong,
    filter_eq_singleton_of_nodup (hnd.filter _)
      (List.mem_filter.mpr ⟨hmem, hqual⟩)]
  simp [recordOf, hread, mkRecord]

set_option maxRecDepth 400000 in
theorem C1_qualifying_unique_record_witness :
    ([mkRecord (extract tContent) fnC] : List Plugin).filter
      (fun p => p.download_url = downloadUrl fnC) =
      [{ name := (dGet (extract tContent) Field.name).getD []
         author := (dGet (extract tContent) Field.author).getD []
         version := (dGet (extract tContent) Field.version).getD []
         description := (dGet (extract tContent) Field.description).getD []
         icon_url := iconUrl (iconFileOf fnC)
         download_url := downloadUrl fnC }] :=
  C1_qualifying_unique_record tDir [mkRecord (extract tContent) fnC]
    fnC tContent (by decide) (by decide) (by decide) (by decide) (by decide)
    (by decide)

set_option maxRecDepth 400000 in
/-- C2 (as written) is false: `str.replace(".py", ".png")` replaces every
occurrence of `.py`, not only the trailing extension.  For the qualifying
file `a.py.py` the record's icon URL ends in `icons/a.png.png`, not the
`icons/a.py.png` the claim requires. -/
theorem C2_counterexample :
    (run c2dir).map (fun l => l.map (fun p => p.icon_url)) =
      some [iconUrl "a.png.png".toList] ∧
    iconUrl "a.png.png".toList ≠ iconUrl "a.py.png".toList := by
  constructor
  · decide
  · decide

/-- C2 amended: every manifest record's download URL is the fixed remote
base followed by the plugin directory and the source filename, and its
icon URL is the fixed remote base followed by the icon directory and the
source filename with every occurrence of `.py` replaced by `.png` (which
is the trailing-extension replacement whenever `.py` occurs only as the
extension). -/
theorem C2_record_urls (d : Dir) (l : List Plugin) (p : Plugin)
    (hrun : run d = some l) (hp : p ∈ l) :
    ∃ fn, fn ∈ d.listing ∧ qualifiesIn d fn = true ∧
      p.download_url = remoteBase ++ PLUGIN_DIR ++ ['/'] ++ fn ∧
      p.icon_url = remoteBase ++ ICON_DIR ++ ['/'] ++
        replaceAll ".py".toList ".png".toList fn := by
  have hl := ((run_eq_some_iff d l).mp hrun).2
  subst hl
  obtain ⟨fn, hfn, rfl⟩ := List.mem_map.mp hp
  obtain ⟨hmem, hq⟩ := List.mem_filter.mp hfn
  exact ⟨fn, hmem, hq, rfl, rfl⟩

set_option maxRecDepth 400000 in
theorem C2_record_urls_witness :
    ∃ fn, fn ∈ tDir.listing ∧ qualifiesIn tDir fn = true ∧
      (mkRecord (extract tContent) fnC).download_url =
        remoteBase ++ PLUGIN_DIR ++ ['/'] ++ fn ∧
      (mkRecord (extract tContent) fnC).icon_url =
        remoteBase ++ ICON_DIR ++ ['/'] ++
          replaceAll ".py".toList ".png".toList fn :=
  C2_record_urls tDir [mkRecord (extract tContent) fnC]
    (mkRecord (extract tContent) fnC) (by decide) (by decide)

/-- C3: a candidate file in which some required field is not matched gets
no record in the manifest, and (when every candidate is readable) the run
still completes normally. -/
theorem C3_missing_field_skipped (d : Dir) (fn c : Str) (f : Field)
    (hreads : ∀ g ∈ d.listing, endsWithPy g = true → (d.readFile g).isSome)
    (hmem : fn ∈ d.listing) (hread : d.readFile fn = some c)
    (hmiss : dGet (extract c) f = none) :
    ∃ l, run d = some l ∧
      l.filter (fun p => p.download_url = downloadUrl fn) = [] := by
  have hnall : hasAll (extract c) = false := by
    cases f <;> simp [hasAll, hmiss]
  have hqual : qualifiesIn d fn = false := by
    simp [qualifiesIn, hread, hnall]
  refine ⟨(d.listing.filter (qualifiesIn d)).map (recordOf d),
    (run_eq_some_iff d _).mpr ⟨hreads, rfl⟩, ?_⟩
  rw [List.filter_map]
  have hfil :
      List.filter
        ((fun p => decide (p.download_url = downloadUrl fn)) ∘ recordOf d)
        (d.listing.filter (qualifiesIn d)) = [] := by
    rw [List.filter_eq_nil_iff]
    intro g hg
    have hgq := (List.mem_filter.mp hg).2
    simp only [Function.comp_apply, decide_eq_true_eq]
    intro he
    have : g = fn := downloadUrl_inj (he : downloadUrl g = downloadUrl fn)
    subst this
    rw [hgq] at hqual
    exact absurd hqual (by simp)
  rw [hfil]
  rfl

set_option maxRecDepth 400000 in
theorem C3_missing_field_skipped_witness :
    ∃ l, run c3dir = some l ∧
      l.filter (fun p => p.download_url = downloadUrl c3fn) = [] :=
  C3_missing_field_skipped c3dir c3fn c3content Field.description
    (by decide) (by decide) (by decide) (by decide)

set_option maxRecDepth 400000 in
/-- C7 (as written) is false: a textual occurrence of the pattern does not
always count.  In `c7content` the value of the `name` assignment contains
a complete `author` assignment; the scan's first match swallows it, so
`author` is matched by the pattern inside the file (it is an occurrence
inside a string literal) yet is absent from the extracted metadata. -/
theorem C7_counterexample :
    (∃ t r, t <:+ c7content ∧
      matchAt t = some (Field.author, "A".toList, r)) ∧
    dGet (extract c7content) Field.author = none :=
  ⟨⟨List.drop 19 c7content, "\"".toList,
    ⟨List.take 19 c7content, List.take_append_drop 19 c7content⟩,
    by decide⟩, by decide⟩

/-- C7 amended: extraction is purely textual and insensitive to the
context before the matches — prepending any text that itself starts no
match (e.g. comment markers) leaves the extraction unchanged — and every
extracted pair arises from a textual occurrence of the pattern; but an
occurrence overlapping an earlier match is skipped (and a later match for
the same field overrides the value). -/
theorem C7_textual_extraction (pre s : Str)
    (h : ∀ i, i < pre.length → matchAt (List.drop i (pre ++ s)) = none) :
    findall (pre ++ s) = findall s ∧
    ∀ f v, (f, v) ∈ findall (pre ++ s) →
      ∃ t r, t <:+ pre ++ s ∧ matchAt t = some (f, v, r) :=
  ⟨findall_prepend h, fun _ _ hm => findall_sound _ hm⟩

set_option maxRecDepth 400000 in
theorem C7_textual_extraction_witness :
    findall (commentPre ++ tContent) = findall tContent ∧
    ∀ f v, (f, v) ∈ findall (commentPre ++ tContent) →
      ∃ t r, t <:+ commentPre ++ tContent ∧ matchAt t = some (f, v, r) :=
  C7_textual_extraction commentPre tContent (by decide)

/-- C9: when the pattern matches the same field more than once, the value
recorded (in the extracted dict, hence in the manifest record) is the
value of the last match in the file. -/
theorem C9_duplicate_last_match_wins (content fn : Str) (f : Field)
    (hdup : 2 ≤ ((findall content).filter (fun p => p.1 = f)).length) :
    ∃ v, ((findall content).filter (fun p => p.1 = f)).getLast? =
        some (f, v) ∧
      dGet (extract content) f = some v ∧
      recField f (mkRecord (extract content) fn) = v := by
  set L := (findall content).filter (fun p => p.1 = f) with hL
  have hne : L ≠ [] := by
    intro he
    rw [he] at hdup
    simp at hdup
  have hgl := List.getLast?_eq_getLast_of_ne_nil hne
  have hpmem : L.getLast hne ∈ L := List.getLast_mem hne
  have hpf : (L.getLast hne).1 = f := by
    have hmem2 : L.getLast hne ∈
        (findall content).filter (fun p => p.1 = f) := by
      rw [← hL]
      exact hpmem
    have := (List.mem_filter.mp hmem2).2
    simpa using this
  have hdg : dGet (extract content) f = some (L.getLast hne).2 := by
    rw [extract, dGet_pyDict, ← hL, hgl]
    rfl
  refine ⟨(L.getLast hne).2, ?_, hdg, ?_⟩
  · rw [hgl]
    congr 1
    rw [← hpf]
  · have hrf : recField f (mkRecord (extract content) fn) =
        (dGet (extract content) f).getD [] := by
      cases f <;> rfl
    rw [hrf, hdg]
    rfl

set_option maxRecDepth 400000 in
theorem C9_duplicate_last_match_wins_witness :
    ∃ v, ((findall c9content).filter
        (fun p => p.1 = Field.name)).getLast? = some (Field.name, v) ∧
      dGet (extract c9content) Field.name = some v ∧
      recField Field.name (mkRecord (extract c9content) fnC) = v :=
  C9_duplicate_last_match_wins c9content fnC Field.name (by decide)

set_option maxRecDepth 400000 in
/-- C10 (as written) is false: a file whose only `name` assignment is the
empty `__plugin_name__ = ""` can still be included, because the pattern's
non-greedy value may pair the empty string's quotes with a later quote
character on the same line.  In `c10dir` the file is included (count 1)
with the junk name value `" x `. -/
theorem C10_counterexample :
    dGet (extract c10content) Field.name = some "\" x ".toList ∧
    (run c10dir).map reportedCount = some 1 := by
  constructor
  · decide
  · decide

set_option maxRecDepth 400000 in
/-- C10 amended: the extraction pattern never captures an empty value —
every extracted field value is a non-empty string — and the lone
assignment `__plugin_name__ = ""` (with nothing after it) produces no
match at all; but the empty assignment's quotes may combine with a later
quote on the same line to form a non-empty match, so such a file is not
necessarily excluded. -/
theorem C10_no_empty_value (s : Str) :
    (∀ f v, (f, v) ∈ findall s → v ≠ []) ∧
    findall "__plugin_name__ = \"\"".toList = [] :=
  ⟨fun _ _ hm => findall_val_ne_nil hm, by decide⟩

set_option maxRecDepth 400000 in
theorem C10_no_empty_value_witness :
    "Money Converter".toList ≠ [] :=
  (C10_no_empty_value tContent).1 Field.name "Money Converter".toList
    (by decide)

end AlgebyteStore
